import Mathlib

/-!
Verification of `bevy_render/src/view/visibility/render_layers.rs`.

The `RenderLayers` bitset (`SmallVec<[u64; INLINE_BLOCKS]>` with
`INLINE_BLOCKS = 1`) is embedded as a `List Nat` of blocks, each block a
64-bit word (well-formedness `WF` records the `u64` bound).  Machine
operations (`|`, `&`, `^`, `<<`, `>>`, `!`) are translated to `Nat`
bitwise operations; `1u64 << (n % 64)` never wraps because `n % 64 < 64`,
so it is exactly `2 ^ (n % 64)`.  The `while` loop of `shrink`, the
`trailing_zeros` intrinsic and the `from_fn` loop of `iter_layers` are
embedded with an explicit fuel argument large enough that the fuel is
never exhausted on `u64` data (the loops run at most `len`, 64 and 64
iterations respectively).

The propagation pair `visible_layers_propagate_system` /
`propagate_recursive` is embedded over an explicit world: per-entity
`VisibleLayers` (declared value), presence of `ComputedVisibleLayers`,
`ChildOf` (parent) and `Children` components, plus the list of entities a
query iterates.  The mutable `ComputedVisibleLayers` store is a function
`Nat → Blocks` threaded through the pass; Rust's unbounded recursion is
given a fuel parameter (matching it exactly for executions that do not
exhaust the fuel).
-/

namespace RenderLayers

/-- `type Layer = usize`. -/
abbrev Layer := Nat

/-- The block sequence of a `RenderLayers` (`SmallVec<[u64; 1]>`),
least-significant block first. -/
abbrev Blocks := List Nat

/-- `const INLINE_BLOCKS: usize = 1`. -/
def INLINE_BLOCKS : Nat := 1

/-- `u64::MAX`, used to translate the `!bit` complement. -/
def U64_MAX : Nat := 2 ^ 64 - 1

/-- Every block fits in a `u64` (true of every value the Rust type can hold). -/
def WF (s : Blocks) : Prop := ∀ b ∈ s, b < 2 ^ 64

instance : DecidablePred WF := fun s =>
  inferInstanceAs (Decidable (∀ b ∈ s, b < 2 ^ 64))

/-- The block at index `i`, reading `0` out of range (how `combine_blocks`
/ `intersects` treat a missing block). -/
def blockAt (s : Blocks) (i : Nat) : Nat := s.getD i 0

/-- Invariant A of the spec: no trailing zero block beyond the one-block
minimum inline capacity. -/
def Canonical (s : Blocks) : Prop :=
  INLINE_BLOCKS < s.length → blockAt s (s.length - 1) ≠ 0

instance : DecidablePred Canonical := fun s =>
  inferInstanceAs (Decidable (INLINE_BLOCKS < s.length → blockAt s (s.length - 1) ≠ 0))

/-- `layer_info`: block index and bit mask of a layer;
`1u64 << (layer % 64) = 2 ^ (layer % 64)` (the shift amount is `< 64`). -/
def layer_info (layer : Nat) : Nat × Nat := (layer / 64, 2 ^ (layer % 64))

/-- `RenderLayers::layer(n)`: the `const` single-layer constructor.  The
construction-time `assert!(buffer_index < INLINE_BLOCKS)` is embedded as
`Option.none` on violation. -/
def layer (n : Layer) : Option Blocks :=
  let bufferIndex := (layer_info n).1
  let bit := (layer_info n).2
  if bufferIndex < INLINE_BLOCKS then
    some ((List.replicate INLINE_BLOCKS 0).set bufferIndex bit)
  else Option.none

/-- `RenderLayers::none()`: `SmallVec::from_const([0; INLINE_BLOCKS])`. -/
def none : Blocks := List.replicate INLINE_BLOCKS 0

/-- `extend_buffer`: resize to `max(len, other_len)` filling with `0`. -/
def extend_buffer (s : Blocks) (other_len : Nat) : Blocks :=
  s ++ List.replicate (max s.length other_len - s.length) 0

/-- `RenderLayers::with`: grow to cover the layer's block, then set its bit. -/
def with' (s : Blocks) (layer : Layer) : Blocks :=
  let bufferIndex := (layer_info layer).1
  let bit := (layer_info layer).2
  let t := extend_buffer s (bufferIndex + 1)
  t.set bufferIndex (t.getD bufferIndex 0 ||| bit)

/-- The `while` loop of `shrink`, with fuel.  Each iteration pops one
block, so `fuel = s.length` (as used by `shrink`) never runs out. -/
def shrinkAux : Nat → Blocks → Blocks
  | 0, s => s
  | fuel + 1, s =>
    if INLINE_BLOCKS < s.length ∧ s.getLast? = some 0 then
      shrinkAux fuel s.dropLast
    else s

/-- `RenderLayers::shrink`: drop trailing zero blocks down to the
one-block minimum. -/
def shrink (s : Blocks) : Blocks := shrinkAux s.length s

/-- `RenderLayers::without`: clear the bit if its block exists; if the
cleared block was the last one, run `shrink`. -/
def without (s : Blocks) (layer : Layer) : Blocks :=
  let bufferIndex := (layer_info layer).1
  let bit := (layer_info layer).2
  if bufferIndex < s.length then
    let t := s.set bufferIndex (s.getD bufferIndex 0 &&& (U64_MAX ^^^ bit))
    if bufferIndex = t.length - 1 then shrink t else t
  else s

/-- `RenderLayers::from_layers` / `FromIterator`: fold `with` from `none`. -/
def from_layers (layers : List Layer) : Blocks := layers.foldl with' none

/-- The tail of the `combine_blocks` loop once the left iterator is
exhausted: every remaining right block is combined with `0`. -/
def combine_tail_left (f : Nat → Nat → Nat) : Blocks → Blocks
  | [] => []
  | b :: bs => f 0 b :: combine_tail_left f bs

/-- The tail of the `combine_blocks` loop once the right iterator is
exhausted: every remaining left block is combined with `0`. -/
def combine_tail_right (f : Nat → Nat → Nat) : Blocks → Blocks
  | [] => []
  | a :: as => f a 0 :: combine_tail_right f as

/-- `combine_blocks`: apply `f` blockwise, a missing block read as `0`
(`unwrap_or_default`), until both iterators are exhausted. -/
def combine_blocks (f : Nat → Nat → Nat) : Blocks → Blocks → Blocks
  | [], bs => combine_tail_left f bs
  | a :: as, [] => f a 0 :: combine_tail_right f as
  | a :: as, b :: bs => f a b :: combine_blocks f as bs

/-- `RenderLayers::union`: blockwise OR, not shrunk. -/
def union (a b : Blocks) : Blocks := combine_blocks (· ||| ·) a b

/-- `RenderLayers::intersection`: blockwise AND, then `shrink`. -/
def intersection (a b : Blocks) : Blocks :=
  shrink (combine_blocks (· &&& ·) a b)

/-- `RenderLayers::symmetric_difference`: blockwise XOR, then `shrink`. -/
def symmetric_difference (a b : Blocks) : Blocks :=
  shrink (combine_blocks (· ^^^ ·) a b)

/-- `RenderLayers::intersects`.  The `self.0.as_ptr() == other.0.as_ptr()`
fast path fires exactly when `self` and `other` are the same object; that
aliasing is embedded as the `sameObject` flag (so `sameObject = true`
entails `a = b`).  Otherwise: zip the two block lists (stopping at the
shorter) and test each pair for a nonzero AND. -/
def intersects (sameObject : Bool) (a b : Blocks) : Bool :=
  if sameObject then true
  else (a.zip b).any fun p => p.1 &&& p.2 != 0

/-- `RenderLayers::bits`: the raw block slice. -/
def bits (s : Blocks) : Blocks := s

/-- Layer membership: bit `n % 64` of block `n / 64` (the data model:
block `i` holds layers `[64*i, 64*i+63]`). -/
def memLayer (s : Blocks) (n : Nat) : Bool := (blockAt s (n / 64)).testBit (n % 64)

/-- `u64::trailing_zeros`, with fuel; on `n = 0` and fuel 64 it returns
64, as the intrinsic does. -/
def trailingZerosAux : Nat → Nat → Nat
  | 0, _ => 0
  | fuel + 1, n => if n % 2 = 1 then 0 else 1 + trailingZerosAux fuel (n / 2)

/-- `buffer.trailing_zeros()` for a `u64` buffer. -/
def trailing_zeros (n : Nat) : Nat := trailingZerosAux 64 n

/-- The `from_fn` loop of `iter_layers`, with fuel.  Each iteration
consumes at least the lowest set bit, so fuel 64 is never exhausted for a
`u64` buffer.  `buffer.checked_shr(next).unwrap_or(0)` is embedded as `0`
when `next ≥ 64`. -/
def iterLayersAux : Nat → Nat → Nat → List Nat
  | 0, _, _ => []
  | fuel + 1, buffer, layer =>
    if buffer = 0 then []
    else
      let next := trailing_zeros buffer + 1
      let buffer2 := if 64 ≤ next then 0 else buffer >>> next
      (layer + next - 1) :: iterLayersAux fuel buffer2 (layer + next)

/-- `RenderLayers::iter_layers` on `(buffer, offset)`: `layer *= 64`, then
scan the buffer least-significant-bit first. -/
def iter_layers (buffer offset : Nat) : List Nat :=
  iterLayersAux 64 buffer (64 * offset)

/-- `RenderLayers::iter`: `self.0.iter().copied().zip(0..)` flat-mapped
through `iter_layers`. -/
def iter (s : Blocks) : List Nat :=
  (s.zip (List.range s.length)).flatMap fun p => iter_layers p.1 p.2

/-- Accumulator-friendly form of `iter`: blocks from index `i` upward. -/
def iterFrom : Blocks → Nat → List Nat
  | [], _ => []
  | b :: bs, i => iter_layers b i ++ iterFrom bs (i + 1)

end RenderLayers

open RenderLayers (Blocks)

/-- The `VisibleLayers` component: `Inherited` or an explicit set. -/
inductive VisibleLayers where
  | Inherited : VisibleLayers
  | Layers (layers : Blocks) : VisibleLayers
deriving DecidableEq

/-- `RenderLayers::default()` = `RenderLayers::layer(0)` = the set `{0}`,
the single block `1`.  This is what `.unwrap_or_default()` produces in the
entry pass when the parent reference is absent or fails to resolve. -/
def defaultLayers : Blocks := [1]

/-- The external world the propagation systems run against: per-entity
`VisibleLayers` (declared value), presence of the `ComputedVisibleLayers`
component, the `ChildOf` parent link, the `Children` component, and the
order in which a whole-world query iterates entities.  All of these are
static during one pass; only the computed values change. -/
structure World where
  declared : Nat → Option VisibleLayers
  hasComputed : Nat → Bool
  parent : Nat → Option Nat
  childrenOf : Nat → Option (List Nat)
  entities : List Nat

/-- The mutable `ComputedVisibleLayers` store (value meaningful where
`hasComputed` holds). -/
abbrev CState := Nat → Blocks

/-- `visible_layer_query.get(e)` succeeds iff `e` has both a
`VisibleLayers` and a `ComputedVisibleLayers` component. -/
def hasBoth (w : World) (e : Nat) : Bool := (w.declared e).isSome && w.hasComputed e

/-- The list produced by `children_query.into_iter().flatten()` inside
`propagate_recursive`: the concatenated `Children` lists of EVERY entity
matching `Query<&Children, (With<VisibleLayers>, With<ComputedVisibleLayers>)>`
— not the children of the entity being propagated. -/
def flatChildren (w : World) : List Nat :=
  (w.entities.filter fun e => hasBoth w e && (w.childrenOf e).isSome).flatMap
    fun e => (w.childrenOf e).getD []

/-- Write one entity's computed value. -/
def upd (st : CState) (e : Nat) (v : Blocks) : CState :=
  fun x => if x = e then v else st x

/-- The `match visibility` of `propagate_recursive`: explicit layers, or
the supplied parent value for `Inherited`. -/
def resolve (vl : VisibleLayers) (parentRL : Blocks) : Blocks :=
  match vl with
  | .Layers layers => layers
  | .Inherited => parentRL

/-- `propagate_recursive`, with fuel for Rust's unbounded recursion
(executions that do not exhaust the fuel match the Rust code exactly).
A failing `visible_layer_query.get_mut(entity)` returns early with the
state untouched (`map_err(drop)?`).  If the resolved value differs from
the current computed value it is overwritten and the recursion walks
`children_query.into_iter().flatten()` — all children of all matching
entities (see `flatChildren`). -/
def propagate_recursive (w : World) : Nat → Blocks → Nat → CState → CState
  | 0, _, _, st => st
  | fuel + 1, parentRL, e, st =>
    match w.declared e, w.hasComputed e with
    | some vl, true =>
      let rl := resolve vl parentRL
      if st e ≠ rl then
        (flatChildren w).foldl
          (fun acc child => propagate_recursive w fuel rl child acc)
          (upd st e rl)
      else st
    | _, _ => st

/-- The resolution step of the entry pass: explicit layers, else the
parent's current computed value, with
`.and_then(...).map(...).unwrap_or_default()` producing
`RenderLayers::default()` (= `{0}`) when the parent is absent or its
lookup in `visible_layer_query` fails. -/
def entryResolve (w : World) (st : CState) (e : Nat) (vl : VisibleLayers) : Blocks :=
  match vl with
  | .Layers layers => layers
  | .Inherited =>
    match w.parent e with
    | some p => if hasBoth w p then st p else defaultLayers
    | Option.none => defaultLayers

/-- One iteration of the `for ... in &changed` loop of
`visible_layers_propagate_system`: resolve, and if the resolved value
differs from the current computed value, overwrite it and recurse into
this entity's own `Children` (the entry pass does use the entity's own
`children` here).  An entity without `VisibleLayers` cannot appear in the
`changed` query; that arm is a guard. -/
def entryStep (w : World) (fuel : Nat) (st : CState) (e : Nat) : CState :=
  match w.declared e with
  | Option.none => st
  | some vl =>
    let rl := entryResolve w st e vl
    if st e ≠ rl then
      ((w.childrenOf e).getD []).foldl
        (fun acc child => propagate_recursive w fuel rl child acc)
        (upd st e rl)
    else st

/-- `visible_layers_propagate_system`: fold the entry step over the
entities flagged by the `changed` query (whose membership is fixed for
the duration of the pass — the filter reads change ticks, not the
computed values being written). -/
def visible_layers_propagate_system (w : World) (fuel : Nat) (changed : List Nat)
    (st : CState) : CState :=
  changed.foldl (entryStep w fuel) st

/-- Concrete world for C1/C8: a single root entity `0`, declared
`Inherited`, with `ComputedVisibleLayers`, no parent, no children. -/
def w1 : World where
  declared := fun _ => some VisibleLayers.Inherited
  hasComputed := fun _ => true
  parent := fun _ => Option.none
  childrenOf := fun _ => Option.none
  entities := [0]

/-- Computed store for the C1 counterexample: entity 0 currently holds the
empty set. -/
def st1 : CState := fun _ => RenderLayers.none

/-- Computed store for the C8 witness: entity 0 currently holds `{0}`. -/
def st8 : CState := fun _ => defaultLayers

/-- Concrete world for C10: entity 1 (explicit `{1}`, no `Children`),
entity 2 (with `Children = [3]`), entity 3 (`Inherited`); all three carry
both components.  Entity 3 is not reachable from entity 1 through
`Children` edges. -/
def wB : World where
  declared := fun e => if e = 1 then some (VisibleLayers.Layers [2]) else some VisibleLayers.Inherited
  hasComputed := fun _ => true
  parent := fun _ => Option.none
  childrenOf := fun e => if e = 2 then some [3] else Option.none
  entities := [1, 2, 3]

/-- Computed store for the C10 counterexample: every entity holds `{0}`. -/
def stB : CState := fun _ => defaultLayers

namespace RenderLayers

theorem INLINE_BLOCKS_eq : INLINE_BLOCKS = 1 := rfl

theorem blockAt_nil (i : Nat) : blockAt [] i = 0 := rfl

theorem blockAt_of_le {s : Blocks} {i : Nat} (h : s.length ≤ i) : blockAt s i = 0 :=
  List.getD_eq_default _ _ h

theorem blockAt_eq_getElem {s : Blocks} {i : Nat} (h : i < s.length) : blockAt s i = s[i] := by
  simp [blockAt, List.getD_eq_getElem?_getD, List.getElem?_eq_getElem h]

theorem blockAt_cons_succ (b : Nat) (s : Blocks) (i : Nat) :
    blockAt (b :: s) (i + 1) = blockAt s i := rfl

theorem blockAt_lt_of_WF {s : Blocks} (h : WF s) (i : Nat) : blockAt s i < 2 ^ 64 := by
  by_cases hi : i < s.length
  · rw [blockAt_eq_getElem hi]
    exact h _ (List.getElem_mem hi)
  · rw [blockAt_of_le (Nat.le_of_not_lt hi)]
    exact Nat.two_pow_pos 64

theorem getLast?_eq_blockAt {s : Blocks} (h : s ≠ []) :
    s.getLast? = some (blockAt s (s.length - 1)) := by
  have hlen : 0 < s.length := List.length_pos.mpr h
  have h1 : s.length - 1 < s.length := by omega
  rw [List.getLast?_eq_getElem?, List.getElem?_eq_getElem h1, blockAt_eq_getElem h1]

theorem ext_blockAt {a b : Blocks} (hlen : a.length = b.length)
    (h : ∀ i, blockAt a i = blockAt b i) : a = b := by
  apply List.ext_getElem hlen
  intro i h1 h2
  have hi := h i
  rwa [blockAt_eq_getElem h1, blockAt_eq_getElem h2] at hi

theorem blockAt_dropLast {s : Blocks} (h : s.getLast? = some 0) (i : Nat) :
    blockAt s.dropLast i = blockAt s i := by
  have hne : s ≠ [] := by
    intro he
    rw [he] at h
    exact Option.noConfusion h
  have hlast : blockAt s (s.length - 1) = 0 := by
    rw [getLast?_eq_blockAt hne] at h
    exact Option.some.inj h
  have hlen : 0 < s.length := List.length_pos.mpr hne
  by_cases hi : i < s.length - 1
  · rw [blockAt_eq_getElem (by simpa using hi), blockAt_eq_getElem (by omega)]
    exact List.getElem_dropLast s i (by simpa using hi)
  · rw [blockAt_of_le (by simpa using Nat.le_of_not_lt hi)]
    rcases Nat.lt_or_ge i s.length with hlt | hge
    · have : i = s.length - 1 := by omega
      rw [this, hlast]
    · rw [blockAt_of_le hge]

theorem shrinkAux_blockAt : ∀ (fuel : Nat) (s : Blocks) (i : Nat),
    blockAt (shrinkAux fuel s) i = blockAt s i := by
  intro fuel
  induction fuel with
  | zero => intro s i; rfl
  | succ fuel ih =>
    intro s i
    rw [shrinkAux]
    split
    · next hc => rw [ih, blockAt_dropLast hc.2]
    · rfl

theorem shrinkAux_ne_nil : ∀ (fuel : Nat) {s : Blocks}, s ≠ [] → shrinkAux fuel s ≠ [] := by
  intro fuel
  induction fuel with
  | zero => intro s h; exact h
  | succ fuel ih =>
    intro s h
    rw [shrinkAux]
    split
    · next hc =>
      apply ih
      have : 1 < s.length := by simpa [INLINE_BLOCKS_eq] using hc.1
      apply List.ne_nil_of_length_pos
      simp [List.length_dropLast]
      omega
    · exact h

theorem shrinkAux_canonical : ∀ (fuel : Nat) (s : Blocks), s.length ≤ fuel →
    Canonical (shrinkAux fuel s) := by
  intro fuel
  induction fuel with
  | zero =>
    intro s h
    have : s = [] := List.length_eq_zero.mp (Nat.le_zero.mp h)
    subst this
    intro hlen
    simp [shrinkAux, INLINE_BLOCKS_eq] at hlen
  | succ fuel ih =>
    intro s h
    rw [shrinkAux]
    split
    · next hc =>
      apply ih
      have : 1 < s.length := by simpa [INLINE_BLOCKS_eq] using hc.1
      simp [List.length_dropLast]
      omega
    · next hc =>
      intro hlen
      have hne : s ≠ [] := by
        apply List.ne_nil_of_length_pos
        simp [INLINE_BLOCKS_eq] at hlen
        omega
      have : ¬ s.getLast? = some 0 := fun hlast => hc ⟨hlen, hlast⟩
      rw [getLast?_eq_blockAt hne] at this
      intro hz
      exact this (by rw [hz])

theorem shrink_blockAt (s : Blocks) (i : Nat) : blockAt (shrink s) i = blockAt s i :=
  shrinkAux_blockAt _ _ _

theorem shrink_ne_nil {s : Blocks} (h : s ≠ []) : shrink s ≠ [] :=
  shrinkAux_ne_nil _ h

theorem shrink_canonical (s : Blocks) : Canonical (shrink s) :=
  shrinkAux_canonical _ _ Nat.le.refl

theorem shrink_eq_nil_iff {s : Blocks} : shrink s = [] ↔ s = [] := by
  constructor
  · intro h
    by_contra hne
    exact shrink_ne_nil hne h
  · intro h
    subst h
    rfl

theorem canonical_ext {a b : Blocks} (ha : a ≠ []) (hb : b ≠ [])
    (hca : Canonical a) (hcb : Canonical b)
    (h : ∀ i, blockAt a i = blockAt b i) : a = b := by
  have hpa : 0 < a.length := List.length_pos.mpr ha
  have hpb : 0 < b.length := List.length_pos.mpr hb
  have hlen : a.length = b.length := by
    rcases Nat.lt_trichotomy a.length b.length with hlt | heq | hgt
    · exfalso
      have h1 : INLINE_BLOCKS < b.length := by rw [INLINE_BLOCKS_eq]; omega
      have hnz := hcb h1
      have hz : blockAt a (b.length - 1) = 0 := blockAt_of_le (by omega)
      rw [h _] at hz
      exact hnz hz
    · exact heq
    · exfalso
      have h1 : INLINE_BLOCKS < a.length := by rw [INLINE_BLOCKS_eq]; omega
      have hnz := hca h1
      have hz : blockAt b (a.length - 1) = 0 := blockAt_of_le (by omega)
      rw [← h _] at hz
      exact hnz hz
  exact ext_blockAt hlen h

theorem shrink_congr {a b : Blocks} (hne : a = [] ↔ b = [])
    (h : ∀ i, blockAt a i = blockAt b i) : shrink a = shrink b := by
  by_cases ha : a = []
  · have hb := hne.mp ha
    subst ha; subst hb; rfl
  · have hb : b ≠ [] := fun e => ha (hne.mpr e)
    exact canonical_ext (shrink_ne_nil ha) (shrink_ne_nil hb)
      (shrink_canonical _) (shrink_canonical _)
      (fun i => by rw [shrink_blockAt, shrink_blockAt]; exact h i)

theorem combine_tail_left_eq_map (f : Nat → Nat → Nat) :
    ∀ (b : Blocks), combine_tail_left f b = b.map (fun y => f 0 y) := by
  intro b
  induction b with
  | nil => rfl
  | cons y ys ih => simp [combine_tail_left, ih]

theorem combine_tail_right_eq_map (f : Nat → Nat → Nat) :
    ∀ (a : Blocks), combine_tail_right f a = a.map (fun x => f x 0) := by
  intro a
  induction a with
  | nil => rfl
  | cons x xs ih => simp [combine_tail_right, ih]

theorem combine_blocks_nil_left (f : Nat → Nat → Nat) (b : Blocks) :
    combine_blocks f [] b = b.map (fun y => f 0 y) :=
  combine_tail_left_eq_map f b

theorem combine_blocks_nil_right (f : Nat → Nat → Nat) :
    ∀ (a : Blocks), combine_blocks f a [] = a.map (fun x => f x 0) := by
  intro a
  cases a with
  | nil => rfl
  | cons x xs => simp [combine_blocks, combine_tail_right_eq_map]

theorem combine_blocks_ne_nil {f : Nat → Nat → Nat} {a : Blocks} (b : Blocks)
    (ha : a ≠ []) : combine_blocks f a b ≠ [] := by
  cases a with
  | nil => exact absurd rfl ha
  | cons x xs => cases b <;> simp [combine_blocks]

theorem combine_blocks_eq_nil_iff {f : Nat → Nat → Nat} {a b : Blocks} :
    combine_blocks f a b = [] ↔ a = [] ∧ b = [] := by
  cases a <;> cases b <;> simp [combine_blocks, combine_tail_left]

theorem length_combine_blocks (f : Nat → Nat → Nat) : ∀ (a b : Blocks),
    (combine_blocks f a b).length = max a.length b.length := by
  intro a
  induction a with
  | nil =>
    intro b
    rw [combine_blocks_nil_left]
    simp
  | cons x xs ih =>
    intro b
    cases b with
    | nil =>
      rw [combine_blocks_nil_right]
      simp
    | cons y ys =>
      simp [combine_blocks, ih ys]
      omega

theorem blockAt_map_left {f : Nat → Nat → Nat} (hf : f 0 0 = 0) :
    ∀ (b : Blocks) (i : Nat), blockAt (b.map fun y => f 0 y) i = f 0 (blockAt b i) := by
  intro b
  induction b with
  | nil => intro i; simpa [blockAt] using hf.symm
  | cons y ys ih =>
    intro i
    cases i with
    | zero => simp [blockAt]
    | succ i => simpa [blockAt_cons_succ] using ih i

theorem blockAt_map_right {f : Nat → Nat → Nat} (hf : f 0 0 = 0) :
    ∀ (a : Blocks) (i : Nat), blockAt (a.map fun x => f x 0) i = f (blockAt a i) 0 := by
  intro a
  induction a with
  | nil => intro i; simpa [blockAt] using hf.symm
  | cons x xs ih =>
    intro i
    cases i with
    | zero => simp [blockAt]
    | succ i => simpa [blockAt_cons_succ] using ih i

theorem blockAt_combine_blocks {f : Nat → Nat → Nat} (hf : f 0 0 = 0) :
    ∀ (a b : Blocks) (i : Nat),
      blockAt (combine_blocks f a b) i = f (blockAt a i) (blockAt b i) := by
  intro a
  induction a with
  | nil =>
    intro b i
    rw [combine_blocks_nil_left, blockAt_map_left hf, blockAt_nil]
  | cons x xs ih =>
    intro b
    cases b with
    | nil =>
      intro i
      rw [combine_blocks_nil_right, blockAt_map_right hf, blockAt_nil]
    | cons y ys =>
      intro i
      cases i with
      | zero => simp [combine_blocks, blockAt]
      | succ i => simpa [combine_blocks, blockAt_cons_succ] using ih ys i

theorem combine_blocks_comm {f : Nat → Nat → Nat} (hf : ∀ x y, f x y = f y x) :
    ∀ (a b : Blocks), combine_blocks f a b = combine_blocks f b a := by
  intro a
  induction a with
  | nil =>
    intro b
    rw [combine_blocks_nil_left, combine_blocks_nil_right]
    exact List.map_congr_left fun y _ => hf 0 y
  | cons x xs ih =>
    intro b
    cases b with
    | nil =>
      rw [combine_blocks_nil_left, combine_blocks_nil_right]
      exact List.map_congr_left fun y _ => hf y 0
    | cons y ys => simp [combine_blocks, hf x y, ih ys]

end RenderLayers

namespace RenderLayers

theorem lor_eq_zero_left {x y : Nat} (h : x ||| y = 0) : x = 0 := by
  apply Nat.eq_of_testBit_eq
  intro i
  have hb := congrArg (fun z => Nat.testBit z i) h
  simp only [Nat.testBit_lor, Nat.zero_testBit, Bool.or_eq_false_iff] at hb
  simp [Nat.zero_testBit, hb.1]

theorem lor_eq_zero_right {x y : Nat} (h : x ||| y = 0) : y = 0 := by
  apply Nat.eq_of_testBit_eq
  intro i
  have hb := congrArg (fun z => Nat.testBit z i) h
  simp only [Nat.testBit_lor, Nat.zero_testBit, Bool.or_eq_false_iff] at hb
  simp [Nat.zero_testBit, hb.2]

theorem bit_lt_two_pow (n : Nat) : 2 ^ (n % 64) < 2 ^ 64 :=
  Nat.pow_lt_pow_right (by omega) (Nat.mod_lt _ (by omega))

theorem blockAt_set {s : Blocks} {i j v : Nat} :
    blockAt (s.set i v) j = if i = j ∧ i < s.length then v else blockAt s j := by
  simp only [blockAt, List.getD_eq_getElem?_getD, List.getElem?_set]
  by_cases hij : i = j
  · subst hij
    by_cases hi : i < s.length
    · simp [hi]
    · rw [List.getElem?_eq_none (Nat.le_of_not_lt hi)]
      simp [hi]
  · simp [hij]

theorem length_extend_buffer (s : Blocks) (k : Nat) :
    (extend_buffer s k).length = max s.length k := by
  simp [extend_buffer]

theorem blockAt_extend_buffer (s : Blocks) (k i : Nat) :
    blockAt (extend_buffer s k) i = blockAt s i := by
  simp only [extend_buffer, blockAt, List.getD_eq_getElem?_getD, List.getElem?_append]
  by_cases hi : i < s.length
  · simp [hi]
  · rw [if_neg hi, List.getElem?_replicate,
      List.getElem?_eq_none (Nat.le_of_not_lt hi)]
    split <;> simp

theorem length_with' (s : Blocks) (n : Nat) :
    (with' s n).length = max s.length (n / 64 + 1) := by
  simp [with', layer_info, List.length_set, length_extend_buffer]

theorem with'_ne_nil (s : Blocks) (n : Nat) : with' s n ≠ [] := by
  apply List.ne_nil_of_length_pos
  rw [length_with']
  omega

theorem blockAt_with' (s : Blocks) (n i : Nat) :
    blockAt (with' s n) i =
      if i = n / 64 then blockAt s i ||| 2 ^ (n % 64) else blockAt s i := by
  simp only [with', layer_info]
  rw [blockAt_set]
  have hin : n / 64 < (extend_buffer s (n / 64 + 1)).length := by
    rw [length_extend_buffer]
    omega
  by_cases h : n / 64 = i
  · subst h
    rw [if_pos ⟨rfl, hin⟩, if_pos rfl]
    have : (extend_buffer s (n / 64 + 1)).getD (n / 64) 0 = blockAt s (n / 64) :=
      blockAt_extend_buffer s _ _
    rw [this]
  · rw [if_neg (fun hc => h hc.1), if_neg (fun hc => h hc.symm),
      blockAt_extend_buffer]

theorem blockAt_without (s : Blocks) (n i : Nat) :
    blockAt (without s n) i =
      if i = n / 64 then blockAt s i &&& (U64_MAX ^^^ 2 ^ (n % 64)) else blockAt s i := by
  simp only [without, layer_info]
  split
  · next hlt =>
    have hset : ∀ j, blockAt (s.set (n / 64) (s.getD (n / 64) 0 &&& (U64_MAX ^^^ 2 ^ (n % 64)))) j =
        if j = n / 64 then blockAt s j &&& (U64_MAX ^^^ 2 ^ (n % 64)) else blockAt s j := by
      intro j
      rw [blockAt_set]
      by_cases h : j = n / 64
      · subst h
        rw [if_pos ⟨rfl, hlt⟩, if_pos rfl]
        rfl
      · rw [if_neg (fun hc => h hc.1.symm), if_neg h]
    split
    · rw [shrink_blockAt, hset]
    · rw [hset]
  · next hge =>
    by_cases h : i = n / 64
    · subst h
      rw [if_pos rfl, blockAt_of_le (by omega), Nat.zero_and]
    · rw [if_neg h]

theorem WF_append {a b : Blocks} (ha : WF a) (hb : WF b) : WF (a ++ b) := by
  intro x hx
  rcases List.mem_append.mp hx with h | h
  · exact ha x h
  · exact hb x h

theorem WF_set {s : Blocks} {i v : Nat} (hs : WF s) (hv : v < 2 ^ 64) : WF (s.set i v) := by
  intro b hb
  rcases List.mem_or_eq_of_mem_set hb with h | h
  · exact hs b h
  · exact h ▸ hv

theorem WF_extend_buffer {s : Blocks} (hs : WF s) (k : Nat) : WF (extend_buffer s k) :=
  WF_append hs fun b hb => by
    rw [List.eq_of_mem_replicate hb]
    exact Nat.two_pow_pos 64

theorem WF_with' {s : Blocks} (hs : WF s) (n : Nat) : WF (with' s n) := by
  simp only [with', layer_info]
  apply WF_set (WF_extend_buffer hs _)
  exact Nat.or_lt_two_pow (blockAt_lt_of_WF (WF_extend_buffer hs _) _) (bit_lt_two_pow n)

theorem WF_dropLast {s : Blocks} (hs : WF s) : WF s.dropLast := fun b hb =>
  hs b ((List.dropLast_sublist s).subset hb)

theorem WF_shrinkAux : ∀ (fuel : Nat) {s : Blocks}, WF s → WF (shrinkAux fuel s) := by
  intro fuel
  induction fuel with
  | zero => intro s h; exact h
  | succ fuel ih =>
    intro s h
    rw [shrinkAux]
    split
    · exact ih (WF_dropLast h)
    · exact h

theorem WF_shrink {s : Blocks} (hs : WF s) : WF (shrink s) := WF_shrinkAux _ hs

theorem WF_without {s : Blocks} (hs : WF s) (n : Nat) : WF (without s n) := by
  simp only [without, layer_info]
  have hv : s.getD (n / 64) 0 &&& (U64_MAX ^^^ 2 ^ (n % 64)) < 2 ^ 64 :=
    Nat.lt_of_le_of_lt Nat.and_le_left (blockAt_lt_of_WF hs _)
  split
  · split
    · exact WF_shrink (WF_set hs hv)
    · exact WF_set hs hv
  · exact hs

theorem WF_none : WF none := by decide

theorem WF_foldl_with' : ∀ (ls : List Nat) (acc : Blocks), WF acc →
    WF (ls.foldl with' acc) := by
  intro ls
  induction ls with
  | nil => intro acc h; exact h
  | cons l ls ih => intro acc h; exact ih _ (WF_with' h l)

theorem WF_from_layers (ls : List Nat) : WF (from_layers ls) :=
  WF_foldl_with' ls none WF_none

theorem canonical_singleton (v : Nat) : Canonical [v] := by
  intro h
  simp [INLINE_BLOCKS_eq] at h

theorem canonical_none : Canonical none := canonical_singleton 0

theorem canonical_with' {s : Blocks} (hc : Canonical s) (n : Nat) :
    Canonical (with' s n) := by
  intro hlen
  rw [length_with'] at hlen
  rw [length_with', blockAt_with']
  by_cases hcase : s.length ≤ n / 64 + 1
  · rw [Nat.max_eq_right hcase, Nat.add_sub_cancel, if_pos rfl]
    intro h0
    have h2 := lor_eq_zero_right h0
    exact absurd h2 (Nat.pos_iff_ne_zero.mp (Nat.two_pow_pos _))
  · have hlt : n / 64 + 1 < s.length := Nat.lt_of_not_le hcase
    rw [Nat.max_eq_left (Nat.le_of_lt hlt), if_neg (by omega)]
    apply hc
    rw [INLINE_BLOCKS_eq] at hlen ⊢
    omega

theorem canonical_without {s : Blocks} (hc : Canonical s) (n : Nat) :
    Canonical (without s n) := by
  simp only [without, layer_info]
  split
  · next hlt =>
    split
    · exact shrink_canonical _
    · next hne =>
      rw [List.length_set] at hne
      intro hlen
      rw [List.length_set] at hlen ⊢
      rw [blockAt_set, if_neg (fun hcond => hne hcond.1)]
      exact hc hlen
  · exact hc

theorem canonical_union {a b : Blocks} (hca : Canonical a) (hcb : Canonical b) :
    Canonical (union a b) := by
  intro hlen
  unfold union at hlen ⊢
  rw [length_combine_blocks] at hlen
  rw [length_combine_blocks, blockAt_combine_blocks (by simp)]
  rcases Nat.le_total a.length b.length with hab | hab
  · rw [Nat.max_eq_right hab] at hlen ⊢
    intro h0
    exact hcb hlen (lor_eq_zero_right h0)
  · rw [Nat.max_eq_left hab] at hlen ⊢
    intro h0
    exact hca hlen (lor_eq_zero_left h0)

theorem canonical_foldl_with' : ∀ (ls : List Nat) (acc : Blocks), Canonical acc →
    Canonical (ls.foldl with' acc) := by
  intro ls
  induction ls with
  | nil => intro acc h; exact h
  | cons l ls ih => intro acc h; exact ih _ (canonical_with' h l)

theorem canonical_from_layers (ls : List Nat) : Canonical (from_layers ls) :=
  canonical_foldl_with' ls none canonical_none

end RenderLayers

namespace RenderLayers

theorem memLayer_with' (s : Blocks) (n m : Nat) :
    memLayer (with' s n) m = (memLayer s m || decide (m = n)) := by
  unfold memLayer
  rw [blockAt_with']
  by_cases h : m / 64 = n / 64
  · rw [if_pos h, Nat.testBit_lor, Nat.testBit_two_pow]
    congr 1
    simp only [decide_eq_decide]
    omega
  · rw [if_neg h]
    have hmn : ¬ m = n := fun e => h (by rw [e])
    simp [hmn]

theorem memLayer_without (s : Blocks) (n m : Nat) :
    memLayer (without s n) m = (memLayer s m && !(decide (m = n))) := by
  unfold memLayer
  rw [blockAt_without]
  by_cases h : m / 64 = n / 64
  · rw [if_pos h, Nat.testBit_land]
    congr 1
    simp only [U64_MAX]
    rw [Nat.testBit_xor, Nat.testBit_two_pow_sub_one, Nat.testBit_two_pow]
    have hm : m % 64 < 64 := Nat.mod_lt _ (by omega)
    rw [decide_eq_true hm, Bool.true_xor]
    congr 1
    simp only [decide_eq_decide]
    omega
  · rw [if_neg h]
    have hmn : ¬ m = n := fun e => h (by rw [e])
    simp [hmn]

theorem blockAt_eq_of_memLayer_eq {a b : Blocks} (hwa : WF a) (hwb : WF b)
    (h : ∀ n, memLayer a n = memLayer b n) (i : Nat) : blockAt a i = blockAt b i := by
  apply Nat.eq_of_testBit_eq
  intro k
  by_cases hk : k < 64
  · have hm := h (64 * i + k)
    have hdiv : (64 * i + k) / 64 = i := by omega
    have hmod : (64 * i + k) % 64 = k := by omega
    unfold memLayer at hm
    rwa [hdiv, hmod] at hm
  · have h64 : (2 : Nat) ^ 64 ≤ 2 ^ k := Nat.pow_le_pow_right (by omega) (Nat.le_of_not_lt hk)
    rw [Nat.testBit_lt_two_pow (Nat.lt_of_lt_of_le (blockAt_lt_of_WF hwa i) h64),
      Nat.testBit_lt_two_pow (Nat.lt_of_lt_of_le (blockAt_lt_of_WF hwb i) h64)]

theorem memLayer_ext {a b : Blocks} (ha : a ≠ []) (hb : b ≠ []) (hwa : WF a) (hwb : WF b)
    (hca : Canonical a) (hcb : Canonical b)
    (h : ∀ n, memLayer a n = memLayer b n) : a = b :=
  canonical_ext ha hb hca hcb (blockAt_eq_of_memLayer_eq hwa hwb h)

theorem ne_nil_of_memLayer {s : Blocks} {n : Nat} (h : memLayer s n = true) : s ≠ [] := by
  intro he
  subst he
  simp [memLayer, blockAt_nil, Nat.zero_testBit] at h

theorem without_ne_nil {s : Blocks} (hs : s ≠ []) (n : Nat) : without s n ≠ [] := by
  simp only [without, layer_info]
  have hset : s.set (n / 64) (s.getD (n / 64) 0 &&& (U64_MAX ^^^ 2 ^ (n % 64))) ≠ [] := by
    apply List.ne_nil_of_length_pos
    rw [List.length_set]
    exact List.length_pos.mpr hs
  split
  · split
    · exact shrink_ne_nil hset
    · exact hset
  · exact hs

theorem none_ne_nil : none ≠ [] := by decide

theorem foldl_with'_ne_nil : ∀ (ls : List Nat) (acc : Blocks), acc ≠ [] →
    ls.foldl with' acc ≠ [] := by
  intro ls
  induction ls with
  | nil => intro acc h; exact h
  | cons l ls ih => intro acc _; exact ih _ (with'_ne_nil acc l)

theorem from_layers_ne_nil (ls : List Nat) : from_layers ls ≠ [] :=
  foldl_with'_ne_nil ls none none_ne_nil

end RenderLayers

namespace RenderLayers

theorem layer_some {n : Nat} {bs : Blocks} (h : layer n = some bs) :
    bs = [2 ^ (n % 64)] ∧ n < 64 := by
  unfold layer at h
  simp only [layer_info] at h
  split at h
  · next hlt =>
    rw [INLINE_BLOCKS_eq] at hlt
    have hn : n / 64 = 0 := by omega
    refine ⟨?_, by omega⟩
    have hbs := Option.some.inj h
    rw [← hbs, hn]
    rfl
  · exact Option.noConfusion h

theorem layer_isSome_iff (n : Nat) : (layer n).isSome = true ↔ n < 64 := by
  unfold layer
  simp only [layer_info]
  split
  · next hlt =>
    rw [INLINE_BLOCKS_eq] at hlt
    simp only [Option.isSome_some, true_iff]
    omega
  · next hge =>
    rw [INLINE_BLOCKS_eq] at hge
    simp only [Option.isSome_none, Bool.false_eq_true, false_iff]
    omega

theorem memLayer_single {n m : Nat} (hn : n < 64) :
    memLayer [2 ^ (n % 64)] m = true ↔ m = n := by
  unfold memLayer
  by_cases hm : m < 64
  · have hdiv : m / 64 = 0 := by omega
    rw [hdiv]
    have hb : blockAt [2 ^ (n % 64)] 0 = 2 ^ (n % 64) := rfl
    rw [hb, Nat.testBit_two_pow]
    simp only [decide_eq_true_eq]
    omega
  · have hz : blockAt [2 ^ (n % 64)] (m / 64) = 0 := by
      apply blockAt_of_le
      simp only [List.length_singleton]
      omega
    rw [hz]
    simp only [Nat.zero_testBit, Bool.false_eq_true, false_iff]
    omega

/-- C3: Canonical form is an invariant: every `RenderLayers` value produced
by any public operation (`none`, `layer`, `from_layers`, `with`, `without`,
`union`, `intersection`, `symmetric_difference`) has no trailing all-zero
block beyond the one-block minimum capacity (`Canonical`); consequently any
two (nonempty, well-formed, canonical) sets with identical layer
membership, however constructed, compare equal under the structural
(derived) equality. -/
theorem C3_canonical_invariant :
    Canonical RenderLayers.none ∧
    (∀ n bs, RenderLayers.layer n = some bs → Canonical bs) ∧
    (∀ ls, Canonical (from_layers ls)) ∧
    (∀ s n, Canonical s → Canonical (with' s n)) ∧
    (∀ s n, Canonical s → Canonical (without s n)) ∧
    (∀ a b, Canonical a → Canonical b → Canonical (union a b)) ∧
    (∀ a b, Canonical (intersection a b)) ∧
    (∀ a b, Canonical (symmetric_difference a b)) ∧
    (∀ a b, a ≠ [] → b ≠ [] → WF a → WF b → Canonical a → Canonical b →
      (∀ n, memLayer a n = memLayer b n) → a = b) := by
  refine ⟨canonical_none, ?_, canonical_from_layers, fun s n hc => canonical_with' hc n,
    fun s n hc => canonical_without hc n, fun a b hca hcb => canonical_union hca hcb,
    fun a b => shrink_canonical _, fun a b => shrink_canonical _,
    fun a b ha hb hwa hwb hca hcb h => memLayer_ext ha hb hwa hwb hca hcb h⟩
  intro n bs h
  rw [(layer_some h).1]
  exact canonical_singleton _

/-- Witness for C3 at a concrete input: `[0, 5]` is canonical, and so is
`with' [0, 5] 70` (which grows the buffer to two blocks). -/
theorem C3_witness : Canonical ([0, 5] : Blocks) ∧ Canonical (with' [0, 5] 70) :=
  ⟨by decide, C3_canonical_invariant.2.2.2.1 [0, 5] 70 (by decide)⟩

/-- C9: every `RenderLayers` value reachable through the public interface
holds at least one block: no constructor or operation produces a
zero-length block sequence (`shrink` stops at the one-block minimum, and
`combine_blocks` of at-least-one-block operands yields at least one
block), so `bits` never returns an empty slice. -/
theorem C9_at_least_one_block :
    RenderLayers.none ≠ [] ∧
    (∀ n bs, RenderLayers.layer n = some bs → bs ≠ []) ∧
    (∀ ls, from_layers ls ≠ []) ∧
    (∀ s n, with' s n ≠ []) ∧
    (∀ s n, s ≠ [] → without s n ≠ []) ∧
    (∀ a b, a ≠ [] → union a b ≠ []) ∧
    (∀ a b, a ≠ [] → intersection a b ≠ []) ∧
    (∀ a b, a ≠ [] → symmetric_difference a b ≠ []) ∧
    (∀ s, s ≠ [] → shrink s ≠ []) ∧
    (∀ s, s ≠ [] → bits s ≠ []) := by
  refine ⟨none_ne_nil, ?_, from_layers_ne_nil, with'_ne_nil,
    fun s n h => without_ne_nil h n,
    fun a b ha => combine_blocks_ne_nil b ha,
    fun a b ha => shrink_ne_nil (combine_blocks_ne_nil b ha),
    fun a b ha => shrink_ne_nil (combine_blocks_ne_nil b ha),
    fun s h => shrink_ne_nil h, fun s h => h⟩
  intro n bs h
  rw [(layer_some h).1]
  simp

/-- Witness for C9 at a concrete input: `[5]` is nonempty and so is
`without [5] 3`. -/
theorem C9_witness : ([5] : Blocks) ≠ [] ∧ without ([5] : Blocks) 3 ≠ [] :=
  ⟨by decide, C9_at_least_one_block.2.2.2.2.1 [5] 3 (by decide)⟩

/-- C4 counterexample: the claim "removing `n` then re-adding `n` yields
the original set, for every starting set and layer" fails at the concrete
input `s = RenderLayers::none()` (blocks `[0]`), `n = 0`:
`none().without(0).with(0)` is `{0}` (blocks `[1]`), not `none()`. -/
theorem C4_counterexample :
    with' (without RenderLayers.none 0) 0 = [1] ∧ ([1] : Blocks) ≠ RenderLayers.none := by
  constructor
  · decide
  · decide

/-- C4 (amended): for every well-formed canonical starting set `s` (every
set reachable through the public interface is such) and every layer `n`
that is a member of `s`, removing `n` (`without`) and then re-adding `n`
(`with`) yields a set equal to the original `s`. -/
theorem C4_amended_round_trip {s : Blocks} {n : Nat} (hwf : WF s) (hc : Canonical s)
    (hm : memLayer s n = true) : with' (without s n) n = s := by
  have hs : s ≠ [] := ne_nil_of_memLayer hm
  apply memLayer_ext (with'_ne_nil _ _) hs
    (WF_with' (WF_without hwf n) n) hwf
    (canonical_with' (canonical_without hc n) n) hc
  intro m
  rw [memLayer_with', memLayer_without]
  by_cases h : m = n
  · subst h
    simp [hm]
  · simp [h]

/-- Witness for C4 (amended) at a concrete input: `s = [3]` (layers 0,1),
`n = 0`. -/
theorem C4_witness :
    WF ([3] : Blocks) ∧ Canonical ([3] : Blocks) ∧ memLayer [3] 0 = true ∧
    with' (without [3] 0) 0 = [3] :=
  ⟨by decide, by decide, by decide,
    C4_amended_round_trip (by decide) (by decide) (by decide)⟩

/-- C6: `union`, `intersection` and `symmetric_difference` are commutative
for all block lists, and `union` and `intersection` are associative. -/
theorem C6_algebra :
    (∀ a b, union a b = union b a) ∧
    (∀ a b, intersection a b = intersection b a) ∧
    (∀ a b, symmetric_difference a b = symmetric_difference b a) ∧
    (∀ a b c, union (union a b) c = union a (union b c)) ∧
    (∀ a b c, intersection (intersection a b) c = intersection a (intersection b c)) := by
  refine ⟨fun a b => combine_blocks_comm Nat.lor_comm a b,
    fun a b => congrArg shrink (combine_blocks_comm Nat.land_comm a b),
    fun a b => congrArg shrink (combine_blocks_comm Nat.xor_comm a b),
    fun a b c => ?_, fun a b c => ?_⟩
  · apply ext_blockAt
    · unfold union
      rw [length_combine_blocks, length_combine_blocks, length_combine_blocks,
        length_combine_blocks]
      exact Nat.max_assoc _ _ _
    · intro i
      unfold union
      rw [blockAt_combine_blocks (by simp), blockAt_combine_blocks (by simp),
        blockAt_combine_blocks (by simp), blockAt_combine_blocks (by simp)]
      exact Nat.lor_assoc _ _ _
  · unfold intersection
    apply shrink_congr
    · simp only [combine_blocks_eq_nil_iff, shrink_eq_nil_iff]
      exact and_assoc
    · intro i
      rw [blockAt_combine_blocks (by simp), shrink_blockAt,
        blockAt_combine_blocks (by simp), blockAt_combine_blocks (by simp),
        shrink_blockAt, blockAt_combine_blocks (by simp)]
      exact Nat.land_assoc _ _ _

/-- C7: the `const` single-layer constructor `layer(n)` fails its
construction-time assertion exactly when `n`'s block index is not below
`INLINE_BLOCKS`, i.e. when `n ≥ 64`; for every `n < 64` it succeeds and
produces the one-block (no heap growth) set whose only member is `n`. -/
theorem C7_layer_bounds :
    (∀ n, (RenderLayers.layer n).isSome = true ↔ n < 64) ∧
    (∀ n bs, RenderLayers.layer n = some bs →
      bs.length = INLINE_BLOCKS ∧ ∀ m, (memLayer bs m = true ↔ m = n)) := by
  constructor
  · exact layer_isSome_iff
  · intro n bs h
    obtain ⟨hbs, hn⟩ := layer_some h
    subst hbs
    exact ⟨rfl, fun m => memLayer_single hn⟩

/-- Witness for C7 at a concrete input: `layer 5 = some [32]`. -/
theorem C7_witness :
    ((RenderLayers.layer 5).isSome = true ↔ 5 < 64) ∧
    ([32].length = INLINE_BLOCKS ∧ ∀ m, (memLayer [32] m = true ↔ m = 5)) :=
  ⟨C7_layer_bounds.1 5, C7_layer_bounds.2 5 [32] (by decide)⟩

/-- C2: the pointer-identity fast path of `intersects` is not semantically
equivalent to the block comparison.  When both arguments alias the same
empty set (`a.intersects(&a)` with `a = RenderLayers::none()`, blocks
`[0]`), the fast path answers `true` while the block comparison — which
the claim, and the function's own doc comment ("A `RenderLayers` with no
layers will not match any other `RenderLayers`, even another with no
layers"), require — answers `false`. -/
theorem C2_fast_path_not_equivalent :
    intersects true RenderLayers.none RenderLayers.none = true ∧
    intersects false RenderLayers.none RenderLayers.none = false := by
  constructor
  · decide
  · decide

end RenderLayers

namespace RenderLayers

theorem testBit_true_lt {x k e : Nat} (hx : x < 2 ^ e) (hb : x.testBit k = true) : k < e := by
  by_contra hke
  have h2 : (2 : Nat) ^ e ≤ 2 ^ k := Nat.pow_le_pow_right (by omega) (Nat.le_of_not_lt hke)
  rw [Nat.testBit_lt_two_pow (Nat.lt_of_lt_of_le hx h2)] at hb
  exact Bool.noConfusion hb

theorem trailingZerosAux_spec : ∀ (fuel n : Nat), n ≠ 0 → n < 2 ^ fuel →
    n.testBit (trailingZerosAux fuel n) = true ∧
      ∀ j < trailingZerosAux fuel n, n.testBit j = false := by
  intro fuel
  induction fuel with
  | zero =>
    intro n h0 hlt
    exact absurd (by omega : n = 0) h0
  | succ fuel ih =>
    intro n h0 hlt
    rw [trailingZerosAux]
    split
    · next hodd =>
      refine ⟨?_, fun j hj => absurd hj (by omega)⟩
      rw [Nat.testBit_zero]
      simp [hodd]
    · next heven =>
      have hmod : n % 2 = 0 := by omega
      have hhalf0 : n / 2 ≠ 0 := by omega
      have hhalflt : n / 2 < 2 ^ fuel := by
        rw [Nat.pow_succ] at hlt
        omega
      obtain ⟨ht, hlow⟩ := ih (n / 2) hhalf0 hhalflt
      constructor
      · rw [Nat.add_comm 1 _, Nat.testBit_succ]
        exact ht
      · intro j hj
        cases j with
        | zero =>
          rw [Nat.testBit_zero]
          simp [hmod]
        | succ j =>
          rw [Nat.testBit_succ]
          exact hlow j (by omega)

theorem trailing_zeros_spec {n : Nat} (h0 : n ≠ 0) (hlt : n < 2 ^ 64) :
    n.testBit (trailing_zeros n) = true ∧
      ∀ j < trailing_zeros n, n.testBit j = false :=
  trailingZerosAux_spec 64 n h0 hlt

theorem trailing_zeros_lt {n : Nat} (h0 : n ≠ 0) (hlt : n < 2 ^ 64) :
    trailing_zeros n < 64 :=
  testBit_true_lt hlt (trailing_zeros_spec h0 hlt).1

theorem iterLayersAux_zero (fuel base : Nat) : iterLayersAux fuel 0 base = [] := by
  cases fuel <;> simp [iterLayersAux]

theorem mem_iterLayersAux : ∀ (fuel buffer base m : Nat), buffer < 2 ^ fuel →
    buffer < 2 ^ 64 →
    (m ∈ iterLayersAux fuel buffer base ↔ ∃ k, buffer.testBit k = true ∧ m = base + k) := by
  intro fuel
  induction fuel with
  | zero =>
    intro buffer base m hf h64
    have : buffer = 0 := by omega
    subst this
    simp [iterLayersAux, Nat.zero_testBit]
  | succ fuel ih =>
    intro buffer base m hf h64
    by_cases hb : buffer = 0
    · subst hb
      simp [iterLayersAux_zero, Nat.zero_testBit]
    · obtain ⟨htb, hlow⟩ := trailing_zeros_spec hb h64
      have htlt : trailing_zeros buffer < 64 := trailing_zeros_lt hb h64
      simp only [iterLayersAux, if_neg hb, List.mem_cons]
      by_cases hnext : 64 ≤ trailing_zeros buffer + 1
      · -- topmost bit: tz = 63, the shifted buffer is zeroed by checked_shr
        have htz : trailing_zeros buffer = 63 := by omega
        rw [if_pos hnext, iterLayersAux_zero]
        simp only [List.not_mem_nil, or_false]
        constructor
        · intro hm
          exact ⟨63, by rw [← htz]; exact htb, by omega⟩
        · rintro ⟨k, hk, rfl⟩
          have hk64 : k < 64 := testBit_true_lt h64 hk
          have : k = 63 := by
            by_contra hne
            have hklt : k < trailing_zeros buffer := by omega
            rw [hlow k hklt] at hk
            exact Bool.noConfusion hk
          omega
      · rw [if_neg hnext]
        have hpos : 0 < 2 ^ (trailing_zeros buffer + 1) := Nat.two_pow_pos _
        have hshift : buffer >>> (trailing_zeros buffer + 1) =
            buffer / 2 ^ (trailing_zeros buffer + 1) := Nat.shiftRight_eq_div_pow _ _
        have hb2f : buffer >>> (trailing_zeros buffer + 1) < 2 ^ fuel := by
          rw [hshift]
          rw [Nat.div_lt_iff_lt_mul hpos]
          calc buffer < 2 ^ (fuel + 1) := hf
          _ = 2 ^ fuel * 2 := by rw [Nat.pow_succ]
          _ ≤ 2 ^ fuel * 2 ^ (trailing_zeros buffer + 1) := by
                apply Nat.mul_le_mul_left
                have : (2 : Nat) ^ 1 ≤ 2 ^ (trailing_zeros buffer + 1) :=
                  Nat.pow_le_pow_right (by omega) (by omega)
                simpa using this
        have hb264 : buffer >>> (trailing_zeros buffer + 1) < 2 ^ 64 := by
          rw [hshift]
          exact Nat.lt_of_le_of_lt (Nat.div_le_self _ _) h64
        rw [ih _ _ m hb2f hb264]
        constructor
        · rintro (hm | ⟨k, hk, rfl⟩)
          · exact ⟨trailing_zeros buffer, htb, by omega⟩
          · rw [Nat.testBit_shiftRight] at hk
            exact ⟨trailing_zeros buffer + 1 + k, hk, by omega⟩
        · rintro ⟨k, hk, rfl⟩
          rcases Nat.lt_trichotomy k (trailing_zeros buffer) with hkt | hkt | hkt
          · rw [hlow k hkt] at hk
            exact absurd hk Bool.noConfusion
          · subst hkt
            left
            omega
          · right
            refine ⟨k - (trailing_zeros buffer + 1), ?_, by omega⟩
            rw [Nat.testBit_shiftRight]
            have : trailing_zeros buffer + 1 + (k - (trailing_zeros buffer + 1)) = k := by
              omega
            rw [this]
            exact hk

theorem iterLayersAux_lb : ∀ (fuel buffer base m : Nat),
    m ∈ iterLayersAux fuel buffer base → base ≤ m := by
  intro fuel
  induction fuel with
  | zero =>
    intro buffer base m hm
    simp [iterLayersAux] at hm
  | succ fuel ih =>
    intro buffer base m hm
    by_cases hb : buffer = 0
    · subst hb
      rw [iterLayersAux_zero] at hm
      simp at hm
    · simp only [iterLayersAux, if_neg hb, List.mem_cons] at hm
      rcases hm with rfl | hm
      · omega
      · have h2 : base + (trailing_zeros buffer + 1) ≤ m := ih _ _ _ hm
        omega

theorem iterLayersAux_pairwise : ∀ (fuel buffer base : Nat),
    List.Pairwise (· < ·) (iterLayersAux fuel buffer base) := by
  intro fuel
  induction fuel with
  | zero =>
    intro buffer base
    simp [iterLayersAux]
  | succ fuel ih =>
    intro buffer base
    by_cases hb : buffer = 0
    · subst hb
      rw [iterLayersAux_zero]
      exact List.Pairwise.nil
    · simp only [iterLayersAux, if_neg hb]
      refine List.pairwise_cons.mpr ⟨?_, ih _ _⟩
      intro y hy
      have := iterLayersAux_lb _ _ _ _ hy
      omega

end RenderLayers

namespace RenderLayers

theorem zip_range'_flatMap : ∀ (s : Blocks) (i : Nat),
    ((s.zip (List.range' i s.length)).flatMap fun p => iter_layers p.1 p.2) = iterFrom s i := by
  intro s
  induction s with
  | nil => intro i; rfl
  | cons b bs ih =>
    intro i
    have hr : List.range' i (b :: bs).length = i :: List.range' (i + 1) bs.length := by
      rw [List.length_cons, List.range'_succ]
    rw [hr, List.zip_cons_cons, List.flatMap_cons, ih (i + 1)]
    rfl

theorem iter_eq_iterFrom (s : Blocks) : iter s = iterFrom s 0 := by
  rw [iter, List.range_eq_range']
  exact zip_range'_flatMap s 0

theorem memLayer_cons (b : Nat) (bs : Blocks) (x : Nat) :
    memLayer (b :: bs) x = if x < 64 then b.testBit x else memLayer bs (x - 64) := by
  unfold memLayer
  by_cases hx : x < 64
  · have hdiv : x / 64 = 0 := by omega
    have hmod : x % 64 = x := by omega
    rw [if_pos hx, hdiv, hmod]
    rfl
  · have hdiv : x / 64 = (x - 64) / 64 + 1 := by omega
    have hmod : x % 64 = (x - 64) % 64 := by omega
    rw [if_neg hx, hdiv, blockAt_cons_succ, hmod]

theorem iterFrom_lb : ∀ (s : Blocks) (i m : Nat), m ∈ iterFrom s i → 64 * i ≤ m := by
  intro s
  induction s with
  | nil => intro i m hm; simp [iterFrom] at hm
  | cons b bs ih =>
    intro i m hm
    rw [iterFrom, List.mem_append] at hm
    rcases hm with hm | hm
    · exact iterLayersAux_lb _ _ _ _ hm
    · have := ih (i + 1) m hm
      omega

theorem mem_iterFrom : ∀ (s : Blocks) (i m : Nat), WF s →
    (m ∈ iterFrom s i ↔ 64 * i ≤ m ∧ memLayer s (m - 64 * i) = true) := by
  intro s
  induction s with
  | nil =>
    intro i m _
    simp [iterFrom, memLayer, blockAt_nil, Nat.zero_testBit]
  | cons b bs ih =>
    intro i m hwf
    have hb : b < 2 ^ 64 := hwf b (List.mem_cons_self _ _)
    have hwfs : WF bs := fun x hx => hwf x (List.mem_cons_of_mem _ hx)
    rw [iterFrom, List.mem_append, iter_layers,
      mem_iterLayersAux 64 b (64 * i) m hb hb, ih (i + 1) m hwfs,
      memLayer_cons]
    constructor
    · rintro (⟨k, hk, rfl⟩ | ⟨hle, hmem⟩)
      · have hk64 : k < 64 := testBit_true_lt hb hk
        refine ⟨by omega, ?_⟩
        rw [if_pos (by omega)]
        have : 64 * i + k - 64 * i = k := by omega
        rw [this]
        exact hk
      · refine ⟨by omega, ?_⟩
        rw [if_neg (by omega)]
        have : m - 64 * i - 64 = m - 64 * (i + 1) := by omega
        rw [this]
        exact hmem
    · rintro ⟨hle, hmem⟩
      by_cases hcase : m - 64 * i < 64
      · left
        rw [if_pos hcase] at hmem
        exact ⟨m - 64 * i, hmem, by omega⟩
      · right
        rw [if_neg hcase] at hmem
        refine ⟨by omega, ?_⟩
        have : m - 64 * i - 64 = m - 64 * (i + 1) := by omega
        rw [← this]
        exact hmem

theorem iterFrom_pairwise : ∀ (s : Blocks) (i : Nat), WF s →
    List.Pairwise (· < ·) (iterFrom s i) := by
  intro s
  induction s with
  | nil => intro i _; exact List.Pairwise.nil
  | cons b bs ih =>
    intro i hwf
    have hb : b < 2 ^ 64 := hwf b (List.mem_cons_self _ _)
    have hwfs : WF bs := fun x hx => hwf x (List.mem_cons_of_mem _ hx)
    rw [iterFrom, iter_layers, List.pairwise_append]
    refine ⟨iterLayersAux_pairwise _ _ _, ih (i + 1) hwfs, ?_⟩
    intro x hx y hy
    obtain ⟨k, hk, rfl⟩ := (mem_iterLayersAux 64 b (64 * i) x hb hb).mp hx
    have hk64 : k < 64 := testBit_true_lt hb hk
    have hyb : 64 * (i + 1) ≤ y := iterFrom_lb bs (i + 1) y hy
    omega

/-- C5: `iter()` yields exactly the member layer numbers, in strictly
ascending order, as a finite sequence (a Lean list).  The claim's two edge
conditions are instances of this general statement: a member at the
topmost bit position (bit 63) of a block is reported and terminates the
scan (the `checked_shr` zeroing is part of the embedded `iter_layers`),
and members in blocks beyond the first are reported with the `64 × block
index` offset, without truncation. -/
theorem C5_iter_exactly_ascending (s : Blocks) (hwf : WF s) :
    List.Pairwise (· < ·) (iter s) ∧ ∀ n, n ∈ iter s ↔ memLayer s n = true := by
  rw [iter_eq_iterFrom]
  refine ⟨iterFrom_pairwise s 0 hwf, ?_⟩
  intro n
  rw [mem_iterFrom s 0 n hwf]
  simp

/-- Witness for C5 at a concrete input: the two-block set `[2^63, 1]`
(layers 63 and 64 — the topmost bit of block 0 and the lowest of
block 1). -/
theorem C5_witness :
    WF ([2 ^ 63, 1] : Blocks) ∧
    (List.Pairwise (· < ·) (iter [2 ^ 63, 1]) ∧
      ∀ n, n ∈ iter [2 ^ 63, 1] ↔ memLayer [2 ^ 63, 1] n = true) :=
  ⟨by decide, C5_iter_exactly_ascending [2 ^ 63, 1] (by decide)⟩

end RenderLayers

theorem foldl_propagate_ne (w : World) (fuel : Nat) (v : Blocks) (x : Nat)
    (ihf : ∀ (u : Blocks) (e : Nat) (st : CState), x ≠ e →
      propagate_recursive w fuel u e st x = st x) :
    ∀ (l : List Nat) (st : CState), (∀ c ∈ l, x ≠ c) →
      (l.foldl (fun acc child => propagate_recursive w fuel v child acc) st) x = st x := by
  intro l
  induction l with
  | nil => intro st _; rfl
  | cons c cs ih =>
    intro st hc
    rw [List.foldl_cons]
    rw [ih _ (fun d hd => hc d (List.mem_cons_of_mem _ hd))]
    exact ihf v c st (hc c (List.mem_cons_self _ _))

theorem propagate_recursive_ne (w : World) (x : Nat) (hx : x ∉ flatChildren w) :
    ∀ (fuel : Nat) (v : Blocks) (e : Nat) (st : CState), x ≠ e →
      propagate_recursive w fuel v e st x = st x := by
  intro fuel
  induction fuel with
  | zero => intro v e st _; rfl
  | succ fuel ih =>
    intro v e st hne
    cases hd : w.declared e with
    | none => simp [propagate_recursive, hd]
    | some vl =>
      cases hc : w.hasComputed e with
      | false => simp [propagate_recursive, hd, hc]
      | true =>
        simp only [propagate_recursive, hd, hc]
        split
        · rw [foldl_propagate_ne w fuel _ x ih _ _
            (fun c hcm he => hx (by rw [he]; exact hcm))]
          simp [upd, hne]
        · rfl

/-- C8: the pruning rule.  In `propagate_recursive`, when the node's
lookup succeeds and its resolved value equals its current computed value,
the whole state is returned unchanged: the node's computed value is not
overwritten and no child is visited or rewritten by that recompute (so
for a chain root→mid→leaf with mid's recomputed value equal to its old
value, leaf's computed value is untouched).  Likewise for one iteration
of the entry pass of `visible_layers_propagate_system`. -/
theorem C8_pruning :
    (∀ (w : World) (fuel : Nat) (parentRL : Blocks) (mid : Nat) (st : CState)
        (vl : VisibleLayers), w.declared mid = some vl → w.hasComputed mid = true →
        st mid = resolve vl parentRL →
        propagate_recursive w (fuel + 1) parentRL mid st = st) ∧
    (∀ (w : World) (fuel : Nat) (st : CState) (e : Nat) (vl : VisibleLayers),
        w.declared e = some vl → st e = entryResolve w st e vl →
        entryStep w fuel st e = st) := by
  constructor
  · intro w fuel parentRL mid st vl hd hc heq
    simp only [propagate_recursive, hd, hc]
    rw [if_neg (fun hne => hne heq)]
  · intro w fuel st e vl hd heq
    simp only [entryStep, hd]
    rw [if_neg (fun hne => hne heq)]

/-- Witness for C8 at a concrete world: the single root entity of `w1`,
whose computed value already equals the resolved value. -/
theorem C8_witness :
    w1.declared 0 = some VisibleLayers.Inherited ∧ w1.hasComputed 0 = true ∧
    st8 0 = resolve VisibleLayers.Inherited defaultLayers ∧
    propagate_recursive w1 1 defaultLayers 0 st8 = st8 :=
  ⟨by decide, by decide, by decide,
    C8_pruning.1 w1 0 defaultLayers 0 st8 VisibleLayers.Inherited
      (by decide) (by decide) (by decide)⟩

/-- C1 counterexample: the claim says a root (`Inherited`, no parent) is
resolved to the empty set; but running the pass on the concrete world `w1`
(entity 0: `Inherited`, no parent, computed currently the empty set `[0]`)
sets entity 0's computed value to `RenderLayers::default()` = `{0}`
(blocks `[1]`) — `.unwrap_or_default()`, not the empty set. -/
theorem C1_counterexample :
    visible_layers_propagate_system w1 1 [0] st1 0 = defaultLayers ∧
    defaultLayers ≠ RenderLayers.none := by
  constructor
  · decide
  · decide

/-- C1 (amended): for every node whose declared value is `Inherited` and
whose parent reference is absent or fails to resolve in
`visible_layer_query`, the entry pass sets the node's computed value to
the DEFAULT set `{0}` (= `RenderLayers::default()`, one block `[1]`), not
the empty set.  (The node must not be listed in any `Children` component,
otherwise the whole-world child recursion of `propagate_recursive` could
overwrite it again.) -/
theorem C1_amended_root_resolves_default (w : World) (fuel : Nat) (st : CState) (e : Nat)
    (hd : w.declared e = some VisibleLayers.Inherited)
    (hp : ∀ p, w.parent e = some p → hasBoth w p = false)
    (hflat : e ∉ flatChildren w)
    (hself : e ∉ (w.childrenOf e).getD []) :
    entryStep w fuel st e e = defaultLayers := by
  have hres : entryResolve w st e VisibleLayers.Inherited = defaultLayers := by
    unfold entryResolve
    cases hpar : w.parent e with
    | none => rfl
    | some p => simp [hp p hpar]
  simp only [entryStep, hd, hres]
  by_cases hcase : st e = defaultLayers
  · rw [if_neg (fun hne => hne hcase)]
    exact hcase
  · rw [if_pos hcase]
    rw [foldl_propagate_ne w fuel defaultLayers e
      (fun u e' st' hne => propagate_recursive_ne w e hflat fuel u e' st' hne)
      _ _ (fun c hcm he => hself (by rw [← he] at hcm; exact hcm))]
    simp [upd]

/-- Witness for C1 (amended) at the concrete world `w1`. -/
theorem C1_witness :
    w1.declared 0 = some VisibleLayers.Inherited ∧
    entryStep w1 1 st1 0 0 = defaultLayers :=
  ⟨by decide, C1_amended_root_resolves_default w1 1 st1 0 (by decide)
    (fun p h => Option.noConfusion h) (by decide) (by decide)⟩

/-- C10: `propagate_recursive` on entity 1 of the world `wB` modifies
entity 3's computed value, although entity 1 has no `Children` component
at all (so entity 3 is not reachable from entity 1 through `Children`
edges — it is entity 2's child).  The recursion iterates
`children_query.into_iter().flatten()`, i.e. the `Children` lists of every
matching entity in the world, instead of the propagated entity's own
children. -/
theorem C10_counterexample :
    propagate_recursive wB 2 [4] 1 stB 3 = [2] ∧ stB 3 = [1] ∧
    (wB.childrenOf 1).getD [] = ([] : List Nat) := by
  refine ⟨by decide, by decide, by decide⟩
